import Mathlib

/-
Verification of the auto-discovery project picker of ai-summon against its
natural-language specification.

The subsystem under verification lives in two source files:
  * src/util.ts        - Git repository scanner (findGitRepositories) and the
                         versioned repository cache store (readIdeReposCache,
                         writeIdeReposCache).
  * src/commands/ide/index.ts - configuration loading (loadConfig), the project
                         catalog (getAllProjects), the search filter
                         (searchAllProjects) and the separator-grouped
                         formatting (formatProjectsWithSeparators).

Modelling conventions:
  * The filesystem is a finite tree of named entries.  Directory entries carry a
    readability flag: an unreadable directory (mode 000: both the stat of its
    children and readdirSync fail) models the "permission denied" traversal
    obstacle of the spec.  Symbolic links are modelled as leaf entries carrying
    their resolved target; readdirSync's withFileTypes Dirents report a symlink
    as not-a-directory, so the scanner never descends into one.
  * Filesystem paths are lists of path segments; the scan root is the
    one-segment path [wd].  path.join(dir, name) appends one segment and
    basename takes the last segment.  The scan root's own base name is modelled
    as the opaque root string wd itself.
  * Node's synchronous exceptions (readdirSync on an unreadable directory,
    JSON.parse on a corrupt cache file) are modelled by total functions
    returning the value the surrounding try/catch produces, so "completes
    without raising" is totality of the model.
  * JavaScript strings are Lean Strings; toLowerCase is a per-character map
    (the repository only ever compares strings it lowercased the same way, so
    the exact Unicode case table is immaterial); the comparator passed to
    Array.prototype.sort by loadConfig (a.name.localeCompare(b.name)) is a
    total preorder, so the stable JS sort is modelled by a stable insertion
    sort.  The category comparator of formatProjectsWithSeparators is NOT
    consistent, so its sort is modelled after the actual algorithm V8 (Node's
    engine) runs on short arrays: TimSort's binary insertion sort, whose
    comparator is invoked as (pivot, sortedElement).
-/

namespace AiSummon

/-! Filesystem model -/

mutual
/-- A filesystem node.  `dir readable children` is a directory whose listing
succeeds iff `readable` (an unreadable directory also hides the stat of its
children, i.e. mode 000).  `symlinkTo t` is a symbolic link whose target
resolves to `t`; `symlinkBroken` is a dangling link. -/
inductive FsNode : Type where
  | file : FsNode
  | symlinkBroken : FsNode
  | symlinkTo : FsNode → FsNode
  | dir : Bool → FsTree → FsNode

/-- A directory listing: the ordered sequence of named entries readdirSync
returns. -/
inductive FsTree : Type where
  | nil : FsTree
  | cons : String → FsNode → FsTree → FsTree
end

/-- Concatenation of two directory listings. -/
def FsTree.append : FsTree → FsTree → FsTree
  | .nil, t => t
  | .cons n node rest, t => .cons n node (rest.append t)

/-- Models fs.existsSync on the node a path resolves to (existsSync follows
symlinks, so a dangling link does not exist). -/
def nodeExists : FsNode → Bool
  | .file => true
  | .dir _ _ => true
  | .symlinkBroken => false
  | .symlinkTo t => nodeExists t

/-- Models existsSync(join(dir, '.git')) for a readable directory with the
given listing: true iff the listing has an entry named ".git" that exists
(file or directory both count, matching the source comment "a .git entry,
file or directory"). -/
def hasGitEntry : FsTree → Bool
  | .nil => false
  | .cons n node rest => (n == ".git" && nodeExists node) || hasGitEntry rest

/-- The names of the entries of a directory listing, in order. -/
def treeNames : FsTree → List String
  | .nil => []
  | .cons n _ rest => n :: treeNames rest

mutual
/-- A real directory tree never lists two entries under the same name; trees
satisfying this well-formedness predicate are exactly those a filesystem can
present to the scanner. -/
def wfNode : FsNode → Bool
  | .dir _ children => wfTree children
  | .symlinkTo t => wfNode t
  | _ => true

def wfTree : FsTree → Bool
  | .nil => true
  | .cons n node rest =>
    !((treeNames rest).contains n) && wfNode node && wfTree rest
end

mutual
/-- Replaces every symlink target in the tree by a canonical one with the same
existence status, erasing everything (in particular every repository) that is
reachable only through a symbolic link. -/
def collapseNode : FsNode → FsNode
  | .file => .file
  | .symlinkBroken => .symlinkBroken
  | .symlinkTo t => if nodeExists t then .symlinkTo .file else .symlinkBroken
  | .dir readable children => .dir readable (collapseTree children)

def collapseTree : FsTree → FsTree
  | .nil => .nil
  | .cons n node rest => .cons n (collapseNode node) (collapseTree rest)
end

/-! Scanner (findGitRepositories, src/util.ts:109-146) -/

/-- Scan result entry: the GitRepository interface of src/util.ts:56-60. -/
structure GitRepository where
  name : String
  path : List String
  topLevelFolder : String
deriving DecidableEq, Repr

mutual
/-- Models the inner closure scanDirectory of findGitRepositories
(src/util.ts:112-142) applied to the node `dirPath` resolves to.
If existsSync(join(dir, '.git')) succeeds, one entry is emitted (name =
basename(dir), path = dir, topLevelFolder = the accumulator) and the scanner
does not recurse.  Otherwise readdirSync's entries are walked.  For an
unreadable directory the marker stat fails and readdirSync throws, which the
catch swallows: no entries.  For a non-directory node readdirSync throws
ENOTDIR, likewise swallowed. -/
def scanDirectory (wd : List String) : FsNode → List String → String → List GitRepository
  | .dir true children, dirPath, top =>
    if hasGitEntry children then
      [{ name := dirPath.getLastD "", path := dirPath, topLevelFolder := top }]
    else
      scanEntries wd children dirPath top
  | _, _, _ => []

/-- Models the for-of loop over readdirSync entries (src/util.ts:127-137):
only an entry whose Dirent isDirectory() holds is recursed into (a symlink
Dirent is not a directory, even when its target is); the topLevelFolder
accumulator becomes the entry name exactly when the current directory is the
working directory itself.  Repositories are emitted in push order. -/
def scanEntries (wd : List String) : FsTree → List String → String → List GitRepository
  | .nil, _, _ => []
  | .cons entryName node rest, dirPath, top =>
    (match node with
     | .dir readable children =>
        scanDirectory wd (.dir readable children) (dirPath ++ [entryName])
          (if dirPath == wd then entryName else top)
     | _ => []) ++ scanEntries wd rest dirPath top
end

/-- The contribution of one directory entry to `scanEntries`: the body of the
for-of loop (src/util.ts:128-136), named so the loop can be reasoned about
one entry at a time. -/
def scanEntryHead (wd : List String) (entryName : String) (node : FsNode)
    (dirPath : List String) (top : String) : List GitRepository :=
  match node with
  | .dir readable children =>
    scanDirectory wd (.dir readable children) (dirPath ++ [entryName])
      (if dirPath == wd then entryName else top)
  | _ => []

/-- Models findGitRepositories (src/util.ts:109-146): scan the working
directory with the root sentinel "/" as the initial topLevelFolder. -/
def findGitRepositories (wd : String) (root : FsNode) : List GitRepository :=
  scanDirectory [wd] root [wd] "/"

/-- The path `q` is a strict descendant of `p`: `p` is a proper
segment-prefix of `q`. -/
def strictDescendant (q p : List String) : Prop := p <+: q ∧ q ≠ p

/-- Two scan entries whose paths lie on different branches: neither path is a
prefix of the other (hence they are distinct and neither is a descendant of
the other). -/
def pathsIncomparable (a b : GitRepository) : Prop :=
  ¬ (a.path <+: b.path) ∧ ¬ (b.path <+: a.path)

/-! Repository cache store (src/util.ts:62-107) -/

/-- The parsed shape of the cache file, as the code sees it after
JSON.parse(...) as Partial of IdeReposCacheFileV1: every field may be absent
or of the wrong type, modelled by Option (none = absent or not of the
expected type; in particular repos = some l models Array.isArray(repos)). -/
structure CacheSnapshot where
  version : Option Int
  workingDirectory : Option String
  updatedAt : Option Int
  repos : Option (List GitRepository)
deriving DecidableEq

/-- The state of the cache file on disk: missing, present but not valid JSON
(JSON.parse throws), or parsed. -/
inductive CacheFile : Type where
  | absent : CacheFile
  | unparsable : CacheFile
  | parsed : CacheSnapshot → CacheFile
deriving DecidableEq

/-- Models readIdeReposCache (src/util.ts:80-96): null unless the file
exists, parses, records version 1 and the requested working directory, and
has an array-shaped repos field.  The try/catch makes every failure a miss;
the model is total, so no error can escape. -/
def readIdeReposCache (wd : String) (file : CacheFile) : Option (List GitRepository) :=
  match file with
  | .absent => none
  | .unparsable => none
  | .parsed c =>
    if c.version ≠ some 1 then none
    else if c.workingDirectory ≠ some wd then none
    else c.repos

/-- Models writeIdeReposCache (src/util.ts:98-107): overwrite the file with a
fresh version-1 snapshot stamped `now`. -/
def writeIdeReposCache (wd : String) (repos : List GitRepository) (now : Int) : CacheFile :=
  .parsed { version := some 1, workingDirectory := some wd, updatedAt := some now,
            repos := some repos }

/-! Configuration loading (loadConfig, src/commands/ide/index.ts:29-63) -/

/-- Stable insertion of a repository into a name-sorted list: inserted before
the first strictly greater name, after equal names.  Together with
`sortByName` this models autoDiscoveredRepos.sort((a, b) =>
a.name.localeCompare(b.name)) (src/commands/ide/index.ts:58): the comparator
is a total preorder on names, and ECMAScript's Array.prototype.sort is
stable, so it is the unique stable sort; localeCompare's collation is
modelled by Lean's lexicographic String order (no claim depends on the
collation of two distinct names). -/
def insertByName (x : GitRepository) : List GitRepository → List GitRepository
  | [] => [x]
  | y :: ys => if y.name < x.name then y :: insertByName x ys else x :: y :: ys

/-- Stable sort of repositories by name; see `insertByName`. -/
def sortByName : List GitRepository → List GitRepository
  | [] => []
  | x :: xs => insertByName x (sortByName xs)

/-- Models the auto-discovery branch of loadConfig
(src/commands/ide/index.ts:33-58) as a function of the configured working
directory, the filesystem subtree its path resolves to (none when
existsSync(workingDirectory) fails, which throws), the refreshReposCache
option, the cache file, and the clock.  Returns the in-memory
autoDiscoveredRepos (sorted at line 58, after the unsorted scan result was
persisted) together with the cache file state after the call. -/
def loadConfigAuto (wd : String) (root? : Option FsNode) (refreshReposCache : Bool)
    (cache : CacheFile) (now : Int) : Except String (List GitRepository × CacheFile) :=
  match root? with
  | none => .error ("Working directory does not exist: " ++ wd)
  | some root =>
    if refreshReposCache then
      let repos := findGitRepositories wd root
      .ok (sortByName repos, writeIdeReposCache wd repos now)
    else
      match readIdeReposCache wd cache with
      | some cached => .ok (sortByName cached, cache)
      | none =>
        let repos := findGitRepositories wd root
        .ok (sortByName repos, writeIdeReposCache wd repos now)

/-! Project catalog and picker (src/commands/ide/index.ts:108-214) -/

/-- Manual configuration: the two-level category to project-name to path map,
in JSON object insertion order. -/
abbrev ReposConfig := List (String × List (String × String))

/-- The slice of HshConfig the catalog consumes: the optional working
directory and the manual category map. -/
structure HshConfig where
  workingDirectory : Option String
  repos : ReposConfig

/-- Renders a segment path for display. -/
def pathToString (p : List String) : String := String.intercalate "/" p

/-- A flattened catalog entry (the record type of getAllProjects,
src/commands/ide/index.ts:109-114). -/
structure Project where
  category : String
  name : String
  path : String
  display : String
deriving DecidableEq, Repr

/-- Models getAllProjects (src/commands/ide/index.ts:109-136): auto-discovery
mode maps the discovered repositories (category = topLevelFolder, display =
"name (path)"), never touching the manual map; manual mode flattens the
category map (display = "name (category)"). -/
def getAllProjects (workingDirectory : Option String)
    (autoDiscoveredRepos : List GitRepository) (reposConfig : ReposConfig) : List Project :=
  match workingDirectory with
  | some _ =>
    autoDiscoveredRepos.map fun repo =>
      { category := repo.topLevelFolder, name := repo.name, path := pathToString repo.path,
        display := repo.name ++ " (" ++ pathToString repo.path ++ ")" }
  | none =>
    reposConfig.flatMap fun catEntry =>
      catEntry.2.map fun proj =>
        { category := catEntry.1, name := proj.1, path := proj.2,
          display := proj.1 ++ " (" ++ catEntry.1 ++ ")" }

/-- Models String.prototype.toLowerCase as a per-character map. -/
def toLowerStr (s : String) : String := String.mk (s.data.map Char.toLower)

/-- Models String.prototype.trim: drop whitespace from both ends. -/
def trimChars (l : List Char) : List Char :=
  ((l.dropWhile Char.isWhitespace).reverse.dropWhile Char.isWhitespace).reverse

/-- Splitting on runs of whitespace (the regex split on one-or-more
whitespace), accumulating the current token in reverse. -/
def splitWsAux : List Char → List Char → List (List Char)
  | [], acc => if acc.isEmpty then [] else [acc.reverse]
  | c :: cs, acc =>
    if c.isWhitespace then
      if acc.isEmpty then splitWsAux cs [] else acc.reverse :: splitWsAux cs []
    else splitWsAux cs (c :: acc)

/-- Models input.toLowerCase().trim().split on whitespace runs
(src/commands/ide/index.ts:145); lowercasing and trimming commute, so this is
also "trimmed, lowercased, and split on whitespace".  (For the whitespace-only
input JavaScript yields [""] where this yields []; both keyword lists match
every entry, which is the only way either is consumed.) -/
def keywordsOf (input : String) : List String :=
  (splitWsAux (trimChars (toLowerStr input).data) []).map fun tok => String.mk tok

/-- Does `hay` start with `needle`? -/
def startsWithSeq : List Char → List Char → Bool
  | _, [] => true
  | [], _ :: _ => false
  | c :: cs, d :: ds => c == d && startsWithSeq cs ds

/-- Models String.prototype.includes: does `needle` occur contiguously
anywhere in `hay`? -/
def jsIncludes : List Char → List Char → Bool
  | [], needle => needle.isEmpty
  | c :: cs, needle => startsWithSeq (c :: cs) needle || jsIncludes cs needle

/-- The combined searchable text of an entry
(src/commands/ide/index.ts:147): name, category and path joined by single
spaces. -/
def searchText (p : Project) : String := p.name ++ " " ++ p.category ++ " " ++ p.path

/-- The filter predicate of searchAllProjects
(src/commands/ide/index.ts:146-149): every keyword occurs in the lowercased
searchable text. -/
def projectMatches (keywords : List String) (p : Project) : Bool :=
  keywords.all fun keyword => jsIncludes (toLowerStr (searchText p)).data keyword.data

/-- Models the filtering stage of searchAllProjects
(src/commands/ide/index.ts:142-150): an empty input short-circuits (if
(input)) to the whole catalog. -/
def filterProjects (projects : List Project) (input : String) : List Project :=
  if input = "" then projects
  else projects.filter fun p => projectMatches (keywordsOf input) p

/-- Holds when `needle` is a case-insensitive substring of `hay`.  Used to
state the spec's matching contract. -/
def ciSubstr (needle hay : String) : Bool :=
  jsIncludes (toLowerStr hay).data (toLowerStr needle).data

/-- The claim's matcher taken at its word: every keyword is a
case-insensitive substring of the PLAIN concatenation of the name, category
and path fields, with no separator between fields. -/
def claimMatchesConcat (input : String) (p : Project) : Bool :=
  (keywordsOf input).all fun k => ciSubstr k (p.name ++ p.category ++ p.path)

/-- A rendered row of the selection list: a choice object with a display
name, an optional selectable value, and the disabled marker used for
separators. -/
structure ChoiceRow where
  name : String
  value : Option Project
  disabled : Bool
deriving DecidableEq, Repr

/-- The grouping keys of formatProjectsWithSeparators
(src/commands/ide/index.ts:171-182): a JavaScript Map's keys enumerate in
insertion order, i.e. order of first occurrence of each category. -/
def groupKeys (projects : List Project) : List String :=
  projects.foldl (fun ks p => if ks.contains p.category then ks else ks ++ [p.category]) []

/-- The group of a category: the entries pushed under that key, in their
original order. -/
def groupGet (projects : List Project) (cat : String) : List Project :=
  projects.filter fun p => p.category == cat

/-- The three-way comparator localeCompare yields, modelled on Lean's
lexicographic String order. -/
def strCmpInt (a b : String) : Int := if a < b then -1 else if b < a then 1 else 0

/-- The category comparator of formatProjectsWithSeparators
(src/commands/ide/index.ts:185-189), verbatim: 1 when a is the root
sentinel, 1 (not -1) when b is, localeCompare otherwise.  Note the comparator
is inconsistent: both cmp("/", x) and cmp(x, "/") are positive. -/
def categoryCmp (a b : String) : Int :=
  if a == "/" then 1 else if b == "/" then 1 else strCmpInt a b

/-- The binary search of V8's TimSort binary insertion sort: find the
insertion slot for `pivot` inside acc[left..right), calling the comparator as
(pivot, acc[mid]) and moving right on a non-negative answer.  Fuel bounds the
loop; any fuel at least right - left computes the loop's answer. -/
def binInsertPos (cmp : String → String → Int) (pivot : String) (acc : List String) :
    Nat → Nat → Nat → Nat
  | 0, left, _ => left
  | fuel + 1, left, right =>
    if left < right then
      let mid := (left + right) / 2
      if cmp pivot (acc.getD mid "") < 0 then binInsertPos cmp pivot acc fuel left mid
      else binInsertPos cmp pivot acc fuel (mid + 1) right
    else left

/-- Insert `x` at index `i`. -/
def insertAt (l : List String) (i : Nat) (x : String) : List String :=
  l.take i ++ x :: l.drop i

/-- Array.prototype.sort with a user comparator, for the short arrays this
code sorts: V8 (Node's engine) runs TimSort, which sorts short arrays by
binary insertion of each element into the processed prefix.  For an
inconsistent comparator (as `categoryCmp` is) ECMAScript leaves the order
implementation-defined, so the model follows the engine's algorithm rather
than an idealized sort. -/
def jsSortStrings (cmp : String → String → Int) (l : List String) : List String :=
  l.foldl (fun acc x => insertAt acc (binInsertPos cmp x acc (acc.length + 1) 0 acc.length) x) []

/-- Models formatProjectsWithSeparators (src/commands/ide/index.ts:162-214):
group by category in first-occurrence order, sort the keys with
`categoryCmp`, then emit for each category one disabled separator row (the
root sentinel labelled "/ (root)") followed by its indented project rows. -/
def formatProjectsWithSeparators (projects : List Project) : List ChoiceRow :=
  let sortedCategories := jsSortStrings categoryCmp (groupKeys projects)
  sortedCategories.flatMap fun category =>
    { name := "---------  " ++ (if category == "/" then "/ (root)" else category) ++
        "  ---------",
      value := none, disabled := true }
    :: (groupGet projects category).map fun p =>
        { name := "  " ++ p.display, value := some p, disabled := false }

/-- Models searchAllProjects (src/commands/ide/index.ts:139-159): filter,
then separator-grouped rows in auto-discovery mode or plain display rows in
manual mode. -/
def searchAllProjects (workingDirectorySet : Bool) (allProjects : List Project)
    (input : String) : List ChoiceRow :=
  let filtered := filterProjects allProjects input
  if workingDirectorySet then formatProjectsWithSeparators filtered
  else filtered.map fun p => { name := p.display, value := some p, disabled := false }

/-- Models loadConfig followed by getAllProjects: the mode decision of
src/commands/ide/index.ts:33 and 116 keyed on config.workingDirectory. -/
def loadAndGetProjects (config : HshConfig) (root? : Option FsNode) (cache : CacheFile)
    (now : Int) (refreshReposCache : Bool) : Except String (List Project) :=
  match config.workingDirectory with
  | some wd =>
    (loadConfigAuto wd root? refreshReposCache cache now).map fun res =>
      getAllProjects (some wd) res.1 config.repos
  | none => .ok (getAllProjects none [] config.repos)

/-- Models the openIDE flow up to the rendered choice list for one search
input: loadConfig, then the searchAllProjects source of the autocomplete
prompt (src/commands/ide/index.ts:298-306 and 217-228). -/
def openIdeRows (config : HshConfig) (root? : Option FsNode) (cache : CacheFile)
    (now : Int) (input : String) : Except String (List ChoiceRow) :=
  (loadAndGetProjects config root? cache now false).map fun projects =>
    searchAllProjects config.workingDirectory.isSome projects input

/-! Concrete inputs used by witnesses and counterexamples -/

/-- A directory containing only a .git marker (a repository root). -/
def repoDir : FsNode := .dir true (.cons ".git" .file .nil)

/-- Tree for the nesting/uniqueness witness: the root holds repositories
a and c/sub, plus a plain file and a repository hidden behind a symlink. -/
def fsScan : FsNode :=
  .dir true
    (.cons "a" repoDir
      (.cons "c" (.dir true (.cons "sub" repoDir (.cons "notes.txt" .file .nil)))
        (.cons "link" (.symlinkTo repoDir) .nil)))

/-- Tree with a single repository that is a direct child of the scan root. -/
def fsDirectChild : FsNode := .dir true (.cons "a" repoDir .nil)

/-- The entry the scanner produces for `fsDirectChild`. -/
def directChildRepo : GitRepository :=
  { name := "a", path := ["w", "a"], topLevelFolder := "a" }

/-- The raw (unsorted) scan result of `fsDirectChild` under root "w". -/
def reposDirectChild : List GitRepository := [directChildRepo]

/-- A catalog entry discovered directly at the scan root: its category is the
root sentinel.  Listed before `projectUnderX`, so the root sentinel is the
first key of the grouping Map. -/
def projectAtRoot : Project :=
  { category := "/", name := "app", path := "w/app", display := "app (w/app)" }

/-- A catalog entry under top-level folder x. -/
def projectUnderX : Project :=
  { category := "x", name := "lib", path := "w/x/lib", display := "lib (w/x/lib)" }

/-- Catalog entry for the search counterexample: name "ab", category "cd",
path "x" (realizable in manual mode by the map cd to ab to x). -/
def boundaryProject : Project :=
  { category := "cd", name := "ab", path := "x", display := "ab (x)" }

/-! Helper lemmas -/

theorem readIdeReposCache_write (wd : String) (repos : List GitRepository) (now : Int) :
    readIdeReposCache wd (writeIdeReposCache wd repos now) = some repos := by
  simp [readIdeReposCache, writeIdeReposCache]

theorem scanEntries_cons (wd : List String) (n : String) (node : FsNode) (rest : FsTree)
    (dirPath : List String) (top : String) :
    scanEntries wd (.cons n node rest) dirPath top =
      scanEntryHead wd n node dirPath top ++ scanEntries wd rest dirPath top := by
  cases node <;> rfl

theorem scanDirectory_readable_dir (wd : List String) (children : FsTree)
    (dirPath : List String) (top : String) :
    scanDirectory wd (.dir true children) dirPath top =
      (if hasGitEntry children then
        [{ name := dirPath.getLastD "", path := dirPath, topLevelFolder := top }]
      else scanEntries wd children dirPath top) := rfl

theorem scanEntries_append (wd : List String) (t1 t2 : FsTree) (dirPath : List String)
    (top : String) :
    scanEntries wd (t1.append t2) dirPath top =
      scanEntries wd t1 dirPath top ++ scanEntries wd t2 dirPath top := by
  match t1 with
  | .nil => rfl
  | .cons n node rest =>
    have h1 : FsTree.append (.cons n node rest) t2 = .cons n node (rest.append t2) := rfl
    rw [h1, scanEntries_cons, scanEntries_cons, scanEntries_append wd rest t2 dirPath top,
      List.append_assoc]

theorem nodeExists_collapse (node : FsNode) : nodeExists (collapseNode node) = nodeExists node := by
  cases node with
  | file => rfl
  | symlinkBroken => rfl
  | dir readable children => rfl
  | symlinkTo t =>
    show nodeExists (if nodeExists t then .symlinkTo .file else .symlinkBroken) = nodeExists t
    by_cases h : nodeExists t = true
    · rw [if_pos h, h]; rfl
    · have hf : nodeExists t = false := by revert h; cases nodeExists t <;> simp
      rw [if_neg (by rw [hf]; exact Bool.false_ne_true), hf]; rfl

theorem hasGitEntry_collapse (t : FsTree) : hasGitEntry (collapseTree t) = hasGitEntry t := by
  match t with
  | .nil => rfl
  | .cons n node rest =>
    show ((n == ".git" && nodeExists (collapseNode node)) || hasGitEntry (collapseTree rest)) =
      ((n == ".git" && nodeExists node) || hasGitEntry rest)
    rw [nodeExists_collapse, hasGitEntry_collapse rest]

mutual
theorem scanDirectory_collapse (wd : List String) (node : FsNode) (dirPath : List String)
    (top : String) :
    scanDirectory wd (collapseNode node) dirPath top = scanDirectory wd node dirPath top := by
  match node with
  | .file => rfl
  | .symlinkBroken => rfl
  | .symlinkTo t =>
    show scanDirectory wd (if nodeExists t then .symlinkTo .file else .symlinkBroken)
        dirPath top = scanDirectory wd (.symlinkTo t) dirPath top
    by_cases h : nodeExists t = true
    · rw [if_pos h]; rfl
    · have hf : nodeExists t = false := by revert h; cases nodeExists t <;> simp
      rw [if_neg (by rw [hf]; exact Bool.false_ne_true)]; rfl
  | .dir false children => rfl
  | .dir true children =>
    show scanDirectory wd (.dir true (collapseTree children)) dirPath top =
      scanDirectory wd (.dir true children) dirPath top
    rw [scanDirectory_readable_dir, scanDirectory_readable_dir, hasGitEntry_collapse,
      scanEntries_collapse wd children dirPath top]

theorem scanEntries_collapse (wd : List String) (t : FsTree) (dirPath : List String)
    (top : String) :
    scanEntries wd (collapseTree t) dirPath top = scanEntries wd t dirPath top := by
  match t with
  | .nil => rfl
  | .cons n node rest =>
    show scanEntries wd (.cons n (collapseNode node) (collapseTree rest)) dirPath top =
      scanEntries wd (.cons n node rest) dirPath top
    rw [scanEntries_cons, scanEntries_cons, scanEntries_collapse wd rest dirPath top]
    congr 1
    cases node with
    | file => rfl
    | symlinkBroken => rfl
    | symlinkTo tt =>
      show scanEntryHead wd n (if nodeExists tt then .symlinkTo .file else .symlinkBroken)
          dirPath top = scanEntryHead wd n (.symlinkTo tt) dirPath top
      by_cases h : nodeExists tt = true
      · rw [if_pos h]; rfl
      · have hf : nodeExists tt = false := by revert h; cases nodeExists tt <;> simp
        rw [if_neg (by rw [hf]; exact Bool.false_ne_true)]; rfl
    | dir readable children =>
      exact scanDirectory_collapse wd (.dir readable children) (dirPath ++ [n])
        (if dirPath == wd then n else top)
end

theorem childExt_inj {p : List String} {n m : String} (h : p ++ [n] <+: p ++ [m]) : n = m := by
  have hlen : (p ++ [n]).length = (p ++ [m]).length := by simp
  have hEq := h.eq_of_length hlen
  have h2 := List.append_cancel_left hEq
  simpa using h2

mutual
theorem scanDirectory_path_extends (wd : List String) (node : FsNode) (dirPath : List String)
    (top : String) (r : GitRepository) (h : r ∈ scanDirectory wd node dirPath top) :
    dirPath <+: r.path := by
  match node with
  | .file => exact absurd h (List.not_mem_nil r)
  | .symlinkBroken => exact absurd h (List.not_mem_nil r)
  | .symlinkTo t => exact absurd h (List.not_mem_nil r)
  | .dir false children => exact absurd h (List.not_mem_nil r)
  | .dir true children =>
    rw [scanDirectory_readable_dir] at h
    by_cases hg : hasGitEntry children = true
    · rw [if_pos hg, List.mem_singleton] at h
      subst h
      exact List.prefix_refl dirPath
    · rw [if_neg hg] at h
      obtain ⟨n, _, hp⟩ := scanEntries_path_extends wd children dirPath top r h
      exact ( List.prefix_append dirPath [n]).trans hp

theorem scanEntries_path_extends (wd : List String) (t : FsTree) (dirPath : List String)
    (top : String) (r : GitRepository) (h : r ∈ scanEntries wd t dirPath top) :
    ∃ n, n ∈ treeNames t ∧ dirPath ++ [n] <+: r.path := by
  match t with
  | .nil => exact absurd h (List.not_mem_nil r)
  | .cons en node rest =>
    rw [scanEntries_cons, List.mem_append] at h
    rcases h with h | h
    · cases node with
      | file => exact absurd h (List.not_mem_nil r)
      | symlinkBroken => exact absurd h (List.not_mem_nil r)
      | symlinkTo tt => exact absurd h (List.not_mem_nil r)
      | dir readable children =>
        have hp := scanDirectory_path_extends wd (.dir readable children) (dirPath ++ [en])
          (if dirPath == wd then en else top) r h
        exact ⟨en, List.mem_cons_self en (treeNames rest), hp⟩
    · obtain ⟨m, hm, hp⟩ := scanEntries_path_extends wd rest dirPath top r h
      exact ⟨m, List.mem_cons_of_mem en hm, hp⟩
end

theorem incomparable_of_distinct_children {p : List String} {n m : String}
    {x y : List String} (hn : p ++ [n] <+: x) (hm : p ++ [m] <+: y) (hnm : n ≠ m) :
    ¬ (x <+: y) := by
  intro hxy
  have h1 : p ++ [n] <+: y := hn.trans hxy
  rcases List.prefix_or_prefix_of_prefix h1 hm with h | h
  · exact hnm (childExt_inj h)
  · exact hnm (childExt_inj h).symm

mutual
theorem scanDirectory_pairwise_incomparable (wd : List String) (node : FsNode)
    (dirPath : List String) (top : String) (hwf : wfNode node = true) :
    (scanDirectory wd node dirPath top).Pairwise pathsIncomparable := by
  match node with
  | .file => exact List.Pairwise.nil
  | .symlinkBroken => exact List.Pairwise.nil
  | .symlinkTo t => exact List.Pairwise.nil
  | .dir false children => exact List.Pairwise.nil
  | .dir true children =>
    rw [scanDirectory_readable_dir]
    by_cases hg : hasGitEntry children = true
    · rw [if_pos hg]
      exact List.pairwise_singleton pathsIncomparable _
    · rw [if_neg hg]
      exact scanEntries_pairwise_incomparable wd children dirPath top hwf

theorem scanEntries_pairwise_incomparable (wd : List String) (t : FsTree)
    (dirPath : List String) (top : String) (hwf : wfTree t = true) :
    (scanEntries wd t dirPath top).Pairwise pathsIncomparable := by
  match t with
  | .nil => exact List.Pairwise.nil
  | .cons en node rest =>
    have hwf3 : (!((treeNames rest).contains en) && wfNode node && wfTree rest) = true := hwf
    simp only [Bool.and_eq_true, Bool.not_eq_true'] at hwf3
    obtain ⟨⟨hnotin, hwfnode⟩, hwfrest⟩ := hwf3
    rw [scanEntries_cons, List.pairwise_append]
    refine ⟨?_, scanEntries_pairwise_incomparable wd rest dirPath top hwfrest, ?_⟩
    · cases node with
      | file => exact List.Pairwise.nil
      | symlinkBroken => exact List.Pairwise.nil
      | symlinkTo tt => exact List.Pairwise.nil
      | dir readable children =>
        exact scanDirectory_pairwise_incomparable wd (.dir readable children)
          (dirPath ++ [en]) (if dirPath == wd then en else top) hwfnode
    · intro a ha b hb
      cases node with
      | file => exact absurd ha (List.not_mem_nil a)
      | symlinkBroken => exact absurd ha (List.not_mem_nil a)
      | symlinkTo tt => exact absurd ha (List.not_mem_nil a)
      | dir readable children =>
        have hpa := scanDirectory_path_extends wd (.dir readable children) (dirPath ++ [en])
          (if dirPath == wd then en else top) a ha
        obtain ⟨m, hmem, hpb⟩ := scanEntries_path_extends wd rest dirPath top b hb
        have hne : en ≠ m := by
          intro hEq
          rw [hEq] at hnotin
          have hc : (treeNames rest).contains m = true :=
            List.contains_iff_exists_mem_beq.mpr ⟨m, hmem, by simp⟩
          rw [hnotin] at hc
          exact Bool.false_ne_true hc
        exact ⟨incomparable_of_distinct_children hpa hpb hne,
          incomparable_of_distinct_children hpb hpa hne.symm⟩
end

theorem scanDirectory_at_dirPath_top (wd : List String) (node : FsNode)
    (dirPath : List String) (top : String) (r : GitRepository)
    (h : r ∈ scanDirectory wd node dirPath top) (hp : r.path = dirPath) :
    r.topLevelFolder = top := by
  match node with
  | .file => exact absurd h (List.not_mem_nil r)
  | .symlinkBroken => exact absurd h (List.not_mem_nil r)
  | .symlinkTo t => exact absurd h (List.not_mem_nil r)
  | .dir false children => exact absurd h (List.not_mem_nil r)
  | .dir true children =>
    rw [scanDirectory_readable_dir] at h
    by_cases hg : hasGitEntry children = true
    · rw [if_pos hg, List.mem_singleton] at h
      subst h
      rfl
    · rw [if_neg hg] at h
      obtain ⟨n, _, hpre⟩ := scanEntries_path_extends wd children dirPath top r h
      rw [hp] at hpre
      have hlen := hpre.length_le
      rw [List.length_append, List.length_singleton] at hlen
      omega

theorem scanEntries_direct_child_top (wd : List String) (t : FsTree) (dirPath : List String)
    (top : String) (r : GitRepository) (c : String) (h : r ∈ scanEntries wd t dirPath top)
    (hp : r.path = dirPath ++ [c]) :
    r.topLevelFolder = (if dirPath == wd then c else top) := by
  match t with
  | .nil => exact absurd h (List.not_mem_nil r)
  | .cons en node rest =>
    rw [scanEntries_cons, List.mem_append] at h
    rcases h with h | h
    · cases node with
      | file => exact absurd h (List.not_mem_nil r)
      | symlinkBroken => exact absurd h (List.not_mem_nil r)
      | symlinkTo tt => exact absurd h (List.not_mem_nil r)
      | dir readable children =>
        have hpre := scanDirectory_path_extends wd (.dir readable children) (dirPath ++ [en])
          (if dirPath == wd then en else top) r h
        rw [hp] at hpre
        have hEq : en = c := childExt_inj hpre
        subst hEq
        exact scanDirectory_at_dirPath_top wd (.dir readable children) (dirPath ++ [en])
          (if dirPath == wd then en else top) r h hp
    · exact scanEntries_direct_child_top wd rest dirPath top r c h hp

theorem char_toNat_ofNat_small (n : Nat) (h : n < 55296) : (Char.ofNat n).toNat = n := by
  rw [Char.ofNat, dif_pos (Or.inl h : Nat.isValidChar n)]
  rfl

theorem toLower_toLower (c : Char) : c.toLower.toLower = c.toLower := by
  unfold Char.toLower
  by_cases h : c.toNat ≥ 65 ∧ c.toNat ≤ 90
  · rw [if_pos h]
    have h32 : (Char.ofNat (c.toNat + 32)).toNat = c.toNat + 32 :=
      char_toNat_ofNat_small _ (by omega)
    rw [if_neg (by omega)]
  · rw [if_neg h, if_neg h]

theorem splitWsAux_chars (l : List Char) : ∀ (acc tok : List Char), tok ∈ splitWsAux l acc →
    ∀ c ∈ tok, c ∈ l ∨ c ∈ acc := by
  induction l with
  | nil =>
    intro acc tok htok c hc
    rw [show splitWsAux [] acc = (if acc.isEmpty then [] else [acc.reverse]) from rfl] at htok
    by_cases he : acc.isEmpty = true
    · rw [if_pos he] at htok
      exact absurd htok (List.not_mem_nil tok)
    · rw [if_neg he, List.mem_singleton] at htok
      subst htok
      exact Or.inr (List.mem_reverse.mp hc)
  | cons ch cs ih =>
    intro acc tok htok c hc
    rw [show splitWsAux (ch :: cs) acc =
      (if ch.isWhitespace then
        (if acc.isEmpty then splitWsAux cs [] else acc.reverse :: splitWsAux cs [])
      else splitWsAux cs (ch :: acc)) from rfl] at htok
    by_cases hw : ch.isWhitespace = true
    · rw [if_pos hw] at htok
      by_cases he : acc.isEmpty = true
      · rw [if_pos he] at htok
        rcases ih [] tok htok c hc with h | h
        · exact Or.inl (List.mem_cons_of_mem ch h)
        · exact absurd h (List.not_mem_nil c)
      · rw [if_neg he, List.mem_cons] at htok
        rcases htok with h | h
        · subst h
          exact Or.inr (List.mem_reverse.mp hc)
        · rcases ih [] tok h c hc with h2 | h2
          · exact Or.inl (List.mem_cons_of_mem ch h2)
          · exact absurd h2 (List.not_mem_nil c)
    · rw [if_neg hw] at htok
      rcases ih (ch :: acc) tok htok c hc with h | h
      · exact Or.inl (List.mem_cons_of_mem ch h)
      · rw [List.mem_cons] at h
        rcases h with h | h
        · exact Or.inl (h ▸ List.mem_cons_self ch cs)
        · exact Or.inr h

theorem trimChars_subset {c : Char} {l : List Char} (h : c ∈ trimChars l) : c ∈ l := by
  unfold trimChars at h
  rw [List.mem_reverse] at h
  have h2 : c ∈ (l.dropWhile Char.isWhitespace).reverse :=
    (List.dropWhile_sublist Char.isWhitespace).subset h
  rw [List.mem_reverse] at h2
  exact (List.dropWhile_sublist Char.isWhitespace).subset h2

theorem keywordsOf_lower_fixed {input k : String} (h : k ∈ keywordsOf input) :
    toLowerStr k = k := by
  unfold keywordsOf at h
  rw [List.mem_map] at h
  obtain ⟨tok, htok, hk⟩ := h
  subst hk
  show String.mk (tok.map Char.toLower) = String.mk tok
  congr 1
  have hchars : ∀ c ∈ tok, c.toLower = c := by
    intro c hc
    rcases splitWsAux_chars _ [] tok htok c hc with hmem | hmem
    · have h2 := trimChars_subset hmem
      rw [show (toLowerStr input).data = input.data.map Char.toLower from rfl,
        List.mem_map] at h2
      obtain ⟨d, _, hd⟩ := h2
      rw [← hd]
      exact toLower_toLower d
    · exact absurd hmem (List.not_mem_nil c)
  rw [List.map_congr_left hchars, List.map_id']

/-! Claim theorems -/

/-- Claim C10: the scanner recurses only into real directories and never
through symbolic links, so its result is invariant under replacing every
symlink target by a canonical placeholder of the same existence status
(`collapseNode` erases every subtree, in particular every repository,
reachable only through a symlink).  Consequently repositories reachable only
through a symlink are never reported; and since the model's recursion is
structural on the finite tree and never follows a target, the walk
terminates even when link targets form cycles on disk. -/
theorem findGitRepositories_ignores_symlink_targets (wd : String) (root : FsNode) :
    findGitRepositories wd (collapseNode root) = findGitRepositories wd root :=
  scanDirectory_collapse [wd] root [wd] "/"

/-- Claim C8: an unreadable directory entry contributes no repositories
(its marker stat and readdirSync both fail and the catch swallows the error,
so the scan completes - the model is total) and removing it from its parent's
listing leaves the entries produced for every sibling unchanged. -/
theorem unreadable_subtree_contributes_nothing (wd : List String) (dirPath : List String)
    (top : String) (before after : FsTree) (n : String) (children : FsTree) :
    scanDirectory wd (.dir false children) dirPath top = [] ∧
    scanEntries wd (before.append (.cons n (.dir false children) after)) dirPath top =
      scanEntries wd (before.append after) dirPath top := by
  refine ⟨rfl, ?_⟩
  rw [scanEntries_append, scanEntries_append, scanEntries_cons]
  rfl

/-- Claim C4: the cache read returns a hit exactly when the snapshot file
exists, parses, records schema version 1 and the requested working
directory, and carries an array-shaped repos field; in every other case
(absent file, unparsable file, wrong shape) it returns a miss - and the model
being a total function, no error can escape. -/
theorem readIdeReposCache_hit_iff (wd : String) (f : CacheFile) (l : List GitRepository) :
    readIdeReposCache wd f = some l ↔
      ∃ c, f = CacheFile.parsed c ∧ c.version = some 1 ∧
        c.workingDirectory = some wd ∧ c.repos = some l := by
  cases f with
  | absent => simp [readIdeReposCache]
  | unparsable => simp [readIdeReposCache]
  | parsed c =>
    by_cases h1 : c.version = some 1
    · by_cases h2 : c.workingDirectory = some wd
      · simp [readIdeReposCache, h1, h2]
      · simp [readIdeReposCache, h1, h2]
    · simp [readIdeReposCache, h1]

/-- Claim C5: the refresh path rescans unconditionally - for every
pre-existing cache file (stale or not) it returns the sort of the fresh scan
of the current filesystem state and persists that fresh scan, and reading
the persisted snapshot back for the same working directory yields exactly
the fresh scan result. -/
theorem refresh_rescans_and_overwrites (wd : String) (root : FsNode) (cache : CacheFile)
    (now : Int) :
    loadConfigAuto wd (some root) true cache now =
      .ok (sortByName (findGitRepositories wd root),
        writeIdeReposCache wd (findGitRepositories wd root) now) ∧
    readIdeReposCache wd (writeIdeReposCache wd (findGitRepositories wd root) now) =
      some (findGitRepositories wd root) :=
  ⟨rfl, readIdeReposCache_write wd (findGitRepositories wd root) now⟩

/-- Claim C1 is violated by the code: on a catalog whose first entry belongs
to the root sentinel category, the rendered list opens with the root
separator and the category "x" follows it, so the root sentinel is NOT last
(and "x", which alphabetically follows "/", is not in the claimed position
either).  The comparator (src/commands/ide/index.ts:185-189) returns 1 both
when a and when b is "/", an inconsistent comparator under which V8's binary
insertion leaves "/" first whenever it is the first grouping key; the code's
own comment "Sort categories alphabetically, but put root (/) last" (line
184) and the spec agree on the intent, so the `return 1` on the b-side
(instead of -1) is a slip in the code. -/
theorem root_separator_renders_first_bug :
    formatProjectsWithSeparators [projectAtRoot, projectUnderX] =
      [{ name := "---------  / (root)  ---------", value := none, disabled := true },
       { name := "  app (w/app)", value := some projectAtRoot, disabled := false },
       { name := "---------  x  ---------", value := none, disabled := true },
       { name := "  lib (w/x/lib)", value := some projectUnderX, disabled := false }] := by
  rfl

/-- Claim C2 as stated is false: for the entry with name "ab", category
"cd", path "x" and the search string "bc", every keyword ("bc") is a
case-insensitive substring of the plain concatenation "abcdx" of the three
fields, so the claim demands inclusion - but the code searches the
space-separated text "ab cd x" and filters the entry out. -/
theorem plain_concatenation_matching_disagrees_with_code :
    claimMatchesConcat "bc" boundaryProject = true ∧
    filterProjects [boundaryProject] "bc" = [] := by
  exact ⟨rfl, rfl⟩

/-- Claim C2 amended: an entry is in the filtered result iff it is in the
catalog and either the search string is empty (every entry matches) or every
keyword (the search string lowercased, trimmed and split on whitespace runs)
is a case-insensitive substring of the SPACE-SEPARATED concatenation of the
entry's name, category and path fields - the fields are joined with single
spaces, not concatenated directly, which is the only amendment the
counterexample forces. -/
theorem filterProjects_mem_iff (projects : List Project) (input : String) (p : Project) :
    p ∈ filterProjects projects input ↔
      p ∈ projects ∧ (input = "" ∨
        ∀ k ∈ keywordsOf input,
          ciSubstr k (p.name ++ " " ++ p.category ++ " " ++ p.path) = true) := by
  by_cases hi : input = ""
  · subst hi
    rw [show filterProjects projects "" = projects from by unfold filterProjects; rw [if_pos rfl]]
    simp
  · rw [show filterProjects projects input =
      projects.filter (fun q => projectMatches (keywordsOf input) q) from by
        unfold filterProjects; rw [if_neg hi]]
    rw [List.mem_filter]
    constructor
    · rintro ⟨hmem, hmatch⟩
      refine ⟨hmem, Or.inr ?_⟩
      intro k hk
      unfold projectMatches at hmatch
      rw [List.all_eq_true] at hmatch
      have hone := hmatch k hk
      unfold ciSubstr
      rw [keywordsOf_lower_fixed hk]
      exact hone
    · rintro ⟨hmem, h⟩
      rcases h with h | h
      · exact absurd h hi
      · refine ⟨hmem, ?_⟩
        unfold projectMatches
        rw [List.all_eq_true]
        intro k hk
        have hone := h k hk
        unfold ciSubstr at hone
        rw [keywordsOf_lower_fixed hk] at hone
        exact hone

/-- Claim C9: when a working directory is configured, the manual category
map is never consulted - two configurations sharing the working directory
but carrying arbitrarily different manual maps produce identical catalogs
and identical picker rows for every search input, whatever the filesystem,
cache state, clock and refresh flag. -/
theorem manual_map_ignored_in_auto_mode (wd : String) (root? : Option FsNode)
    (cache : CacheFile) (now : Int) (refreshReposCache : Bool) (m1 m2 : ReposConfig)
    (input : String) :
    loadAndGetProjects ⟨some wd, m1⟩ root? cache now refreshReposCache =
      loadAndGetProjects ⟨some wd, m2⟩ root? cache now refreshReposCache ∧
    openIdeRows ⟨some wd, m1⟩ root? cache now input =
      openIdeRows ⟨some wd, m2⟩ root? cache now input :=
  ⟨rfl, rfl⟩

/-- Claim C6: on the default (non-refresh) path, whatever the initial cache
state, a first call leaves a cache that the second call hits: the second
call returns the same repository list and the same cache state, and its
cache read is a hit (not none), i.e. no second scanner walk is taken. -/
theorem warm_on_miss_second_run_hits_cache (wd : String) (root : FsNode) (cache : CacheFile)
    (now1 now2 : Int) (r1 : List GitRepository) (c1 : CacheFile)
    (h : loadConfigAuto wd (some root) false cache now1 = .ok (r1, c1)) :
    loadConfigAuto wd (some root) false c1 now2 = .ok (r1, c1) ∧
    readIdeReposCache wd c1 ≠ none := by
  cases hr : readIdeReposCache wd cache with
  | some cached =>
    have hh : Except.ok (ε := String) (sortByName cached, cache) = .ok (r1, c1) := by
      rw [← h]
      simp [loadConfigAuto, hr]
    simp only [Except.ok.injEq, Prod.mk.injEq] at hh
    obtain ⟨hl, hc⟩ := hh
    subst hl
    subst hc
    constructor
    · simp [loadConfigAuto, hr]
    · rw [hr]
      exact Option.some_ne_none cached
  | none =>
    have hh : Except.ok (ε := String)
        (sortByName (findGitRepositories wd root),
          writeIdeReposCache wd (findGitRepositories wd root) now1) = .ok (r1, c1) := by
      rw [← h]
      simp [loadConfigAuto, hr]
    simp only [Except.ok.injEq, Prod.mk.injEq] at hh
    obtain ⟨hl, hc⟩ := hh
    subst hl
    subst hc
    constructor
    · simp [loadConfigAuto, readIdeReposCache_write]
    · rw [readIdeReposCache_write]
      exact Option.some_ne_none (findGitRepositories wd root)

/-- Claim C3: on every well-formed directory tree (no directory lists two
entries under one name, as on a real filesystem) the scan result has
pairwise distinct paths, and no reported path is a strict descendant of
another reported path - the scanner stops descending at each repository. -/
theorem findGitRepositories_unique_and_unnested (wd : String) (root : FsNode)
    (hwf : wfNode root = true) :
    ((findGitRepositories wd root).map (fun r => r.path)).Nodup ∧
    (findGitRepositories wd root).Pairwise
      (fun a b => ¬ strictDescendant a.path b.path ∧ ¬ strictDescendant b.path a.path) := by
  have hpw := scanDirectory_pairwise_incomparable [wd] root [wd] "/" hwf
  constructor
  · show ((findGitRepositories wd root).map (fun r => r.path)).Pairwise (· ≠ ·)
    rw [List.pairwise_map]
    refine hpw.imp ?_
    intro a b h hEq
    exact h.1 (hEq ▸ List.prefix_refl a.path)
  · refine hpw.imp ?_
    intro a b h
    exact ⟨fun hsd => h.2 hsd.1, fun hsd => h.1 hsd.1⟩

/-- Witness for C3: the scan root "w" holding repositories a and c/sub, a
plain file and a symlinked repository. -/
theorem findGitRepositories_unique_and_unnested_witness :
    wfNode fsScan = true ∧
    (((findGitRepositories "w" fsScan).map (fun r => r.path)).Nodup ∧
      (findGitRepositories "w" fsScan).Pairwise
        (fun a b => ¬ strictDescendant a.path b.path ∧ ¬ strictDescendant b.path a.path)) :=
  ⟨by rfl, findGitRepositories_unique_and_unnested "w" fsScan (by rfl)⟩

/-- Claim C7 as stated is false: in the tree whose root has the single child
"a" containing a .git marker, the discovered repository's root ["w", "a"] is
a direct child of the scan root ["w"], yet its topLevelFolder is its own
name "a", not the root sentinel "/".  (The spec's own flat-discovery
scenario in section 8 agrees with the code here.) -/
theorem direct_child_repo_not_sentinel :
    (findGitRepositories "w" fsDirectChild).map (fun r => (r.path, r.topLevelFolder)) =
      [(["w", "a"], "a")] ∧ ("a" : String) ≠ "/" :=
  ⟨rfl, by decide⟩

/-- Claim C7 amended: the scanner records the root sentinel "/" exactly for
a repository that IS the scan root itself; a repository that is a direct
child of the scan root records its own directory name as topLevelFolder. -/
theorem topLevelFolder_sentinel_only_at_root (wd : String) (root : FsNode)
    (r : GitRepository) (h : r ∈ findGitRepositories wd root) :
    (r.path = [wd] → r.topLevelFolder = "/") ∧
    ∀ c, r.path = [wd, c] → r.topLevelFolder = c := by
  constructor
  · intro hp
    exact scanDirectory_at_dirPath_top [wd] root [wd] "/" r h hp
  · intro c hp
    match root with
    | .file => exact absurd h (List.not_mem_nil r)
    | .symlinkBroken => exact absurd h (List.not_mem_nil r)
    | .symlinkTo t => exact absurd h (List.not_mem_nil r)
    | .dir false children => exact absurd h (List.not_mem_nil r)
    | .dir true children =>
      have h2 : r ∈ scanDirectory [wd] (.dir true children) [wd] "/" := h
      rw [scanDirectory_readable_dir] at h2
      by_cases hg : hasGitEntry children = true
      · rw [if_pos hg, List.mem_singleton] at h2
        have : r.path = [wd] := by rw [h2]
        rw [hp] at this
        simp at this
      · rw [if_neg hg] at h2
        have := scanEntries_direct_child_top [wd] children [wd] "/" r c h2 hp
        rw [if_pos (by simp : ([wd] == [wd]) = true)] at this
        exact this

/-- Witness for amended C7: the direct-child repository of `fsDirectChild`
records its own name "a". -/
theorem topLevelFolder_sentinel_only_at_root_witness :
    directChildRepo ∈ findGitRepositories "w" fsDirectChild ∧
    directChildRepo.topLevelFolder = "a" :=
  ⟨by decide, (topLevelFolder_sentinel_only_at_root "w" fsDirectChild directChildRepo
    (by decide)).2 "a" (by rfl)⟩

/-- Witness for C6 at a concrete input: scan root "w" holding one repository
"a", starting from an absent cache file. -/
theorem warm_on_miss_second_run_hits_cache_witness :
    loadConfigAuto "w" (some fsDirectChild) false
        (writeIdeReposCache "w" reposDirectChild 0) 1 =
      .ok (reposDirectChild, writeIdeReposCache "w" reposDirectChild 0) ∧
    readIdeReposCache "w" (writeIdeReposCache "w" reposDirectChild 0) ≠ none :=
  warm_on_miss_second_run_hits_cache "w" fsDirectChild .absent 0 1 reposDirectChild
    (writeIdeReposCache "w" reposDirectChild 0) (by rfl)

end AiSummon
